import Mathlib

/-!
Verification of the Vibecast daily-podcast generator's content pipeline.

The definitions below are a shallow embedding of the Python sources:
  - `podcast/sources/base.py` : `ContentItem`, `filter_items`, `select_items`
  - `podcast/run_daily.py`    : `load_state`, `clean_old_urls`, `run_pipeline`
  - `podcast/rss_feed.py`     : `update_feed`, episode rendering cap
  - `podcast/tts.py`          : `chunk_text`
Python strings are modelled as `String` where only equality and order are
used, and as `List Char` where character-level operations matter.
-/

namespace Vibecast

/-- One content item, as in `ContentItem` of `podcast/sources/base.py`.
The relevance score is a keyword count in the code (floats `0.0`, `1.0`, ...),
modelled here as `Nat`. -/
structure ContentItem where
  title : String
  url : String
  source : String
  summary : String
  score : Nat
deriving DecidableEq, Repr

/-! ## `select_items` (base.py lines 125-155) -/

/-- `source_counts.get(item.source, 0)`: dictionary lookup with default 0,
the dictionary being an association list. -/
def lookupCount : List (String × Nat) → String → Nat
  | [], _ => 0
  | (k, v) :: rest, s => if k = s then v else lookupCount rest s

/-- `source_counts[item.source] = n`: dictionary update. -/
def setCount : List (String × Nat) → String → Nat → List (String × Nat)
  | [], s, n => [(s, n)]
  | (k, v) :: rest, s, n =>
    if k = s then (s, n) :: rest else (k, v) :: setCount rest s n

/-- The selection loop of `select_items`: `nSel` is `len(selected)` so far and
`counts` is `source_counts`.  The `break` once `len(selected) >= max_items`
is the first branch. -/
def selectAux (maxItems maxPerSource : Nat) :
    Nat → List (String × Nat) → List ContentItem → List ContentItem
  | _, _, [] => []
  | nSel, counts, it :: rest =>
    if maxItems ≤ nSel then []
    else
      let c := lookupCount counts it.source
      if maxPerSource ≤ c then selectAux maxItems maxPerSource nSel counts rest
      else it :: selectAux maxItems maxPerSource (nSel + 1)
        (setCount counts it.source (c + 1)) rest

/-- `select_items(items, max_items, max_per_source)` from base.py. -/
def select_items (items : List ContentItem) (maxItems maxPerSource : Nat) :
    List ContentItem :=
  selectAux maxItems maxPerSource 0 [] items

/-- Modelled from the spec's words (§4.2), for comparison with
`select_items`: a single forward pass that takes an item iff fewer than
`maxItems` items have been taken so far and fewer than `maxPerSource` items
of the same source have been taken; `taken` is the list taken so far. -/
def selectSpecPass (maxItems maxPerSource : Nat) :
    List ContentItem → List ContentItem → List ContentItem
  | _, [] => []
  | taken, it :: rest =>
    if taken.length < maxItems ∧
        taken.countP (fun x => decide (x.source = it.source)) < maxPerSource then
      it :: selectSpecPass maxItems maxPerSource (taken ++ [it]) rest
    else selectSpecPass maxItems maxPerSource taken rest

theorem lookupCount_setCount (counts : List (String × Nat)) (s t : String) (n : Nat) :
    lookupCount (setCount counts s n) t = if t = s then n else lookupCount counts t := by
  induction counts with
  | nil =>
    by_cases h : t = s
    · simp [setCount, lookupCount, h]
    · have h' : ¬ s = t := fun hh => h hh.symm
      simp [setCount, lookupCount, h, h']
  | cons kv rest ih =>
    obtain ⟨k, v⟩ := kv
    by_cases hks : k = s
    · subst hks
      by_cases hts : t = k
      · simp [setCount, lookupCount, hts]
      · have h' : ¬ k = t := fun hh => hts hh.symm
        simp [setCount, lookupCount, hts, h']
    · by_cases hkt : k = t
      · subst hkt
        simp [setCount, lookupCount, hks]
      · simp [setCount, lookupCount, hks, hkt, ih]

/-- If `maxItems` items are already taken, the spec pass takes nothing more. -/
theorem selectSpecPass_full (maxItems maxPerSource : Nat)
    (items taken : List ContentItem) (h : maxItems ≤ taken.length) :
    selectSpecPass maxItems maxPerSource taken items = [] := by
  induction items with
  | nil => rfl
  | cons it rest ih =>
    have : ¬ (taken.length < maxItems ∧
        taken.countP (fun x => decide (x.source = it.source)) < maxPerSource) := by
      rintro ⟨h1, -⟩; omega
    simp only [selectSpecPass, if_neg this, ih]

/-- The selection loop equals the spec's forward pass whenever the running
counters agree with the taken list. -/
theorem selectAux_eq_specPass (maxItems maxPerSource : Nat)
    (items : List ContentItem) :
    ∀ (taken : List ContentItem) (counts : List (String × Nat)),
      (∀ s, lookupCount counts s = taken.countP (fun x => decide (x.source = s))) →
      selectAux maxItems maxPerSource taken.length counts items =
        selectSpecPass maxItems maxPerSource taken items := by
  induction items with
  | nil => intro taken counts _; rfl
  | cons it rest ih =>
    intro taken counts hcount
    by_cases hfull : maxItems ≤ taken.length
    · rw [selectSpecPass_full maxItems maxPerSource (it :: rest) taken hfull]
      simp [selectAux, hfull]
    · have hlt : taken.length < maxItems := Nat.lt_of_not_le hfull
      by_cases hsrc :
          maxPerSource ≤ taken.countP (fun x => decide (x.source = it.source))
      · have hnot : ¬ (taken.length < maxItems ∧
            taken.countP (fun x => decide (x.source = it.source)) < maxPerSource) := by
          rintro ⟨-, h2⟩; omega
        simp only [selectAux, if_neg hfull, hcount it.source, if_pos hsrc,
          selectSpecPass, if_neg hnot]
        exact ih taken counts hcount
      · have hyes : taken.length < maxItems ∧
            taken.countP (fun x => decide (x.source = it.source)) < maxPerSource :=
          ⟨hlt, Nat.lt_of_not_le hsrc⟩
        simp only [selectAux, if_neg hfull, hcount it.source, if_neg hsrc,
          selectSpecPass, if_pos hyes]
        have hlen : (taken ++ [it]).length = taken.length + 1 := by simp
        have hinv : ∀ s, lookupCount (setCount counts it.source
            (taken.countP (fun x => decide (x.source = it.source)) + 1)) s =
            (taken ++ [it]).countP (fun x => decide (x.source = s)) := by
          intro s
          rw [lookupCount_setCount]
          by_cases hs : s = it.source
          · rw [if_pos hs, hs]
            simp [List.countP_append, List.countP_cons]
          · rw [if_neg hs, hcount s]
            have h2 : ¬ (it.source = s) := fun h => hs h.symm
            simp [List.countP_append, List.countP_cons, h2]
        have := ih (taken ++ [it]) (setCount counts it.source
          (taken.countP (fun x => decide (x.source = it.source)) + 1)) hinv
        rw [hlen] at this
        exact congrArg (it :: ·) this

/-- The spec pass never exceeds the global cap. -/
theorem selectSpecPass_length (maxItems maxPerSource : Nat)
    (items : List ContentItem) :
    ∀ taken : List ContentItem, taken.length ≤ maxItems →
      taken.length + (selectSpecPass maxItems maxPerSource taken items).length
        ≤ maxItems := by
  induction items with
  | nil => intro taken h; simpa using h
  | cons it rest ih =>
    intro taken h
    by_cases hc : taken.length < maxItems ∧
        taken.countP (fun x => decide (x.source = it.source)) < maxPerSource
    · simp only [selectSpecPass, if_pos hc, List.length_cons]
      have := ih (taken ++ [it]) (by simp; omega)
      simp only [List.length_append, List.length_cons, List.length_nil] at this
      omega
    · simp only [selectSpecPass, if_neg hc]
      exact ih taken h

/-- The spec pass never exceeds the per-source cap. -/
theorem selectSpecPass_countP (maxItems maxPerSource : Nat)
    (items : List ContentItem) (s : String) :
    ∀ taken : List ContentItem,
      taken.countP (fun x => decide (x.source = s)) ≤ maxPerSource →
      taken.countP (fun x => decide (x.source = s)) +
        (selectSpecPass maxItems maxPerSource taken items).countP
          (fun x => decide (x.source = s))
        ≤ maxPerSource := by
  induction items with
  | nil => intro taken h; simpa [selectSpecPass] using h
  | cons it rest ih =>
    intro taken h
    by_cases hc : taken.length < maxItems ∧
        taken.countP (fun x => decide (x.source = it.source)) < maxPerSource
    · simp only [selectSpecPass, if_pos hc]
      by_cases hs : it.source = s
      · have hlt : taken.countP (fun x => decide (x.source = s)) < maxPerSource := by
          rw [← hs]; exact hc.2
        have hstep : (taken ++ [it]).countP (fun x => decide (x.source = s)) =
            taken.countP (fun x => decide (x.source = s)) + 1 := by
          simp [List.countP_append, List.countP_cons, hs]
        have := ih (taken ++ [it]) (by rw [hstep]; omega)
        rw [hstep] at this
        simp only [List.countP_cons, decide_eq_true_eq, if_pos hs] at *
        omega
      · have hstep : (taken ++ [it]).countP (fun x => decide (x.source = s)) =
            taken.countP (fun x => decide (x.source = s)) := by
          simp [List.countP_append, List.countP_cons, hs]
        have := ih (taken ++ [it]) (by rw [hstep]; exact h)
        rw [hstep] at this
        simp only [List.countP_cons, decide_eq_true_eq, if_neg hs] at *
        omega
    · simp only [selectSpecPass, if_neg hc]
      exact ih taken h

/-- The spec pass returns a subsequence of its input. -/
theorem selectSpecPass_sublist (maxItems maxPerSource : Nat)
    (items : List ContentItem) :
    ∀ taken : List ContentItem,
      (selectSpecPass maxItems maxPerSource taken items).Sublist items := by
  induction items with
  | nil => intro taken; simp [selectSpecPass]
  | cons it rest ih =>
    intro taken
    by_cases hc : taken.length < maxItems ∧
        taken.countP (fun x => decide (x.source = it.source)) < maxPerSource
    · simp only [selectSpecPass, if_pos hc]
      exact List.Sublist.cons₂ it (ih (taken ++ [it]))
    · simp only [selectSpecPass, if_neg hc]
      exact List.Sublist.cons it (ih taken)

/-- C1: `select_items` is exactly the order-preserving forward pass that takes
an item iff both caps still have room; its output respects both caps and is a
subsequence of the input. -/
theorem select_items_correct (items : List ContentItem) (maxItems maxPerSource : Nat) :
    select_items items maxItems maxPerSource =
        selectSpecPass maxItems maxPerSource [] items
    ∧ (select_items items maxItems maxPerSource).length ≤ maxItems
    ∧ (∀ s, (select_items items maxItems maxPerSource).countP
        (fun x => decide (x.source = s)) ≤ maxPerSource)
    ∧ (select_items items maxItems maxPerSource).Sublist items := by
  have heq : select_items items maxItems maxPerSource =
      selectSpecPass maxItems maxPerSource [] items := by
    have := selectAux_eq_specPass maxItems maxPerSource items [] []
      (by intro s; simp [lookupCount])
    simpa [select_items] using this
  refine ⟨heq, ?_, ?_, ?_⟩
  · rw [heq]
    have := selectSpecPass_length maxItems maxPerSource items [] (by simp)
    simpa using this
  · intro s
    rw [heq]
    have := selectSpecPass_countP maxItems maxPerSource items s [] (by simp)
    simpa using this
  · rw [heq]
    exact selectSpecPass_sublist maxItems maxPerSource items []

/-! ## `filter_items` (base.py lines 74-122) -/

/-- Python `.lower()` on the item text (character-wise lowering). -/
def lowerChars (s : List Char) : List Char := s.map Char.toLower

/-- `pat` occurs in `s` starting at index `i`. -/
def patAt (pat s : List Char) (i : Nat) : Bool := decide ((s.drop i).take pat.length = pat)

/-- Python substring test `pat in s`. -/
def containsSub (s pat : List Char) : Bool :=
  (List.range (s.length + 1)).any (fun i => patAt pat s i)

/-- `text = f"{item.title} {item.summary}".lower()`. -/
def itemText (it : ContentItem) : List Char :=
  lowerChars (it.title ++ " " ++ it.summary).toList

/-- `keyword.lower() in text`. -/
def kwHit (it : ContentItem) (k : String) : Bool :=
  containsSub (itemText it) (lowerChars k.toList)

/-- The block-keyword loop: any block keyword occurring in the text. -/
def isBlocked (blockKeywords : List String) (it : ContentItem) : Bool :=
  blockKeywords.any (kwHit it)

/-- The boost-keyword loop: one point per boost keyword found. -/
def boostScore (boostKeywords : List String) (it : ContentItem) : Nat :=
  boostKeywords.countP (kwHit it)

/-- An item survives iff its URL is unused and no block keyword hits. -/
def keepItem (usedUrls blockKeywords : List String) (it : ContentItem) : Bool :=
  !(decide (it.url ∈ usedUrls)) && !(isBlocked blockKeywords it)

/-- `item.score = score` assignment. -/
def rescore (boostKeywords : List String) (it : ContentItem) : ContentItem :=
  { it with score := boostScore boostKeywords it }

/-- `filtered.sort(key=lambda x: x.score, reverse=True)`: Python's sort is
stable, modelled by a stable insertion sort under this relation. -/
def scoreRel (a b : ContentItem) : Prop := b.score ≤ a.score

instance : DecidableRel scoreRel := fun a b =>
  inferInstanceAs (Decidable (b.score ≤ a.score))

instance : IsTotal ContentItem scoreRel :=
  ⟨fun a b => Nat.le_total b.score a.score⟩

instance : IsTrans ContentItem scoreRel :=
  ⟨fun _ _ _ hab hbc => Nat.le_trans hbc hab⟩

/-- `filter_items(items, block_keywords, boost_keywords, used_urls)` from
base.py: drop used URLs and blocked items, rescore survivors by boost
keywords, sort by score descending (stable). -/
def filter_items (items : List ContentItem)
    (blockKeywords boostKeywords usedUrls : List String) : List ContentItem :=
  List.insertionSort scoreRel
    ((items.filter (keepItem usedUrls blockKeywords)).map (rescore boostKeywords))

theorem filter_score_orderedInsert (x : ContentItem) (l : List ContentItem) (n : Nat) :
    (List.orderedInsert scoreRel x l).filter (fun y => decide (y.score = n)) =
      if x.score = n then x :: l.filter (fun y => decide (y.score = n))
      else l.filter (fun y => decide (y.score = n)) := by
  rw [List.orderedInsert_eq_take_drop, List.filter_append]
  have hl : l.filter (fun y => decide (y.score = n)) =
      (l.takeWhile fun b => decide ¬ scoreRel x b).filter (fun y => decide (y.score = n)) ++
      (l.dropWhile fun b => decide ¬ scoreRel x b).filter (fun y => decide (y.score = n)) := by
    rw [← List.filter_append, List.takeWhile_append_dropWhile]
  by_cases hx : x.score = n
  · rw [if_pos hx]
    have htake : (l.takeWhile fun b => decide ¬ scoreRel x b).filter
        (fun y => decide (y.score = n)) = [] := by
      rw [List.filter_eq_nil_iff]
      intro y hy
      have h1 := List.mem_takeWhile_imp hy
      simp only [decide_eq_true_eq, scoreRel] at h1
      simp only [decide_eq_true_eq]
      omega
    rw [hl, htake, List.filter_cons]
    simp [hx]
  · rw [if_neg hx, hl, List.filter_cons]
    simp [hx]

theorem filter_score_insertionSort (l : List ContentItem) (n : Nat) :
    (List.insertionSort scoreRel l).filter (fun y => decide (y.score = n)) =
      l.filter (fun y => decide (y.score = n)) := by
  induction l with
  | nil => rfl
  | cons a l ih =>
    simp only [List.insertionSort, filter_score_orderedInsert, ih, List.filter_cons]
    by_cases ha : a.score = n
    · simp [ha]
    · simp [ha]

/-- C2: an input item survives `filter_items` (with some score) iff its URL
is not among the used URLs and no block keyword occurs, case-insensitively,
in its title-and-summary text. -/
theorem filter_items_membership (items : List ContentItem)
    (block boost used : List String) (it : ContentItem) (hmem : it ∈ items) :
    (∃ n, { it with score := n } ∈ filter_items items block boost used) ↔
      (it.url ∉ used ∧ ∀ k ∈ block, kwHit it k = false) := by
  have hperm := List.perm_insertionSort scoreRel
    ((items.filter (keepItem used block)).map (rescore boost))
  constructor
  · rintro ⟨n, hn⟩
    have hn' : { it with score := n } ∈
        (items.filter (keepItem used block)).map (rescore boost) :=
      hperm.mem_iff.mp hn
    obtain ⟨j, hj, hje⟩ := List.mem_map.mp hn'
    obtain ⟨hjmem, hjkeep⟩ := List.mem_filter.mp hj
    have hcomp : j.title = it.title ∧ j.url = it.url ∧ j.source = it.source ∧
        j.summary = it.summary := by
      rcases j with ⟨jt, ju, js, jm, jc⟩
      rcases it with ⟨t, u, s, m, c⟩
      simp only [rescore, ContentItem.mk.injEq] at hje
      exact ⟨hje.1, hje.2.1, hje.2.2.1, hje.2.2.2.1⟩
    have htext : itemText j = itemText it := by
      simp [itemText, hcomp.1, hcomp.2.2.2]
    have hhit : kwHit j = kwHit it := by
      funext k
      simp [kwHit, htext]
    have hkeep_it : keepItem used block it = true := by
      have : keepItem used block j = keepItem used block it := by
        simp [keepItem, isBlocked, hhit, hcomp.2.1]
      rw [← this]; exact hjkeep
    have := hkeep_it
    simp only [keepItem, Bool.and_eq_true, Bool.not_eq_true', decide_eq_false_iff_not,
      isBlocked, List.any_eq_false] at this
    exact ⟨this.1, fun k hk => by
      have := this.2 k hk
      simp [kwHit] at this ⊢
      exact this⟩
  · rintro ⟨hurl, hblock⟩
    refine ⟨boostScore boost it, ?_⟩
    simp only [filter_items]
    rw [hperm.mem_iff]
    refine List.mem_map.mpr ⟨it, List.mem_filter.mpr ⟨hmem, ?_⟩, rfl⟩
    simp only [keepItem, Bool.and_eq_true, Bool.not_eq_true', decide_eq_false_iff_not,
      isBlocked, List.any_eq_false]
    exact ⟨hurl, fun k hk => by simp [hblock k hk]⟩

/-- C3: every item in the output of `filter_items` carries as score the
number of boost keywords hitting it; the output is sorted by non-increasing
score; and for each score value the output lists the items in original fetch
order (stable sort). -/
theorem filter_items_scoring (items : List ContentItem)
    (block boost used : List String) :
    (∀ x ∈ filter_items items block boost used, x.score = boostScore boost x)
    ∧ List.Sorted scoreRel (filter_items items block boost used)
    ∧ ∀ n, (filter_items items block boost used).filter (fun x => decide (x.score = n)) =
        ((items.filter (keepItem used block)).map (rescore boost)).filter
          (fun x => decide (x.score = n)) := by
  refine ⟨?_, ?_, ?_⟩
  · intro x hx
    have hx' : x ∈ (items.filter (keepItem used block)).map (rescore boost) :=
      (List.perm_insertionSort scoreRel _).mem_iff.mp hx
    obtain ⟨j, _, hje⟩ := List.mem_map.mp hx'
    subst hje
    rfl
  · exact List.sorted_insertionSort scoreRel _
  · intro n
    exact filter_score_insertionSort _ n

/-! ## `clean_old_urls` (run_daily.py lines 216-229)

The code compares ISO-format timestamp strings with Python's `>`, which is
lexicographic on code points, modelled by `pyStrLt`.  The wall-clock
computation `cutoff = datetime.now() - timedelta(days=dedupe_days)` is kept
abstract: the state-cleaning logic is parametrised by `cutoffStr`, the
`cutoff.isoformat()` string. -/

/-- Python string `<`: lexicographic comparison by code point. -/
def pyStrLt : List Char → List Char → Bool
  | [], [] => false
  | [], _ :: _ => true
  | _ :: _, [] => false
  | c :: a, d :: b =>
    if c.toNat < d.toNat then true
    else if d.toNat < c.toNat then false
    else pyStrLt a b

/-- The slice of `state` that `clean_old_urls` reads and writes, for a state
whose `url_timestamps` key is present. -/
structure RunState where
  url_timestamps : List (String × String)
  used_urls : List String
deriving DecidableEq, Repr

/-- `clean_old_urls`: keep entries with `ts > cutoff_str` and rebuild
`used_urls` from the surviving map's keys. -/
def clean_old_urls (state : RunState) (cutoffStr : String) : RunState :=
  let kept := state.url_timestamps.filter
    (fun p => pyStrLt cutoffStr.toList p.2.toList)
  { url_timestamps := kept, used_urls := kept.map (·.1) }

/-- C4 counterexample: an entry whose timestamp equals the cutoff exactly is
at (hence not before) the cutoff, yet `clean_old_urls` drops it, together
with its entry in the rebuilt `used_urls`. -/
theorem clean_old_urls_boundary_dropped :
    pyStrLt "2026-01-01T00:00:00".toList "2026-01-01T00:00:00".toList = false
    ∧ ("u", "2026-01-01T00:00:00") ∈
        (RunState.mk [("u", "2026-01-01T00:00:00")] ["u"]).url_timestamps
    ∧ (clean_old_urls (RunState.mk [("u", "2026-01-01T00:00:00")] ["u"])
        "2026-01-01T00:00:00").url_timestamps = []
    ∧ (clean_old_urls (RunState.mk [("u", "2026-01-01T00:00:00")] ["u"])
        "2026-01-01T00:00:00").used_urls = [] := by
  refine ⟨by decide, by simp, by decide, by decide⟩

/-- C4 (amended): after `clean_old_urls`, an entry survives iff it was
present and its timestamp is strictly later (code-point order) than the
cutoff — the entry exactly at the boundary is dropped — and `used_urls` is
rebuilt as exactly the keys of the surviving map. -/
theorem clean_old_urls_spec (state : RunState) (cutoffStr : String) :
    (∀ u ts, (u, ts) ∈ (clean_old_urls state cutoffStr).url_timestamps ↔
      ((u, ts) ∈ state.url_timestamps ∧ pyStrLt cutoffStr.toList ts.toList = true))
    ∧ (clean_old_urls state cutoffStr).used_urls =
        ((clean_old_urls state cutoffStr).url_timestamps).map (·.1) := by
  constructor
  · intro u ts
    simp [clean_old_urls, List.mem_filter]
  · rfl

/-! ## `load_state` (run_daily.py lines 86-95) -/

/-- The fields of the default state `{"used_urls": [], "last_run": None}`. -/
structure StateFile where
  used_urls : List String
  last_run : Option String
deriving DecidableEq, Repr

/-- `load_state`: `readFile` is `None` when `state.json` does not exist,
otherwise the file's text; `parse` models `json.load`, returning `none` when
a `JSONDecodeError` would be raised. -/
def load_state (readFile : Option String) (parse : String → Option StateFile) :
    StateFile :=
  match readFile with
  | none => { used_urls := [], last_run := none }
  | some content =>
    match parse content with
    | none => { used_urls := [], last_run := none }
    | some st => st

/-- C9: with the state file absent, or present but unparseable, `load_state`
returns the empty state: no used URLs and no last-run time. -/
theorem load_state_defaults (parse : String → Option StateFile) (content : String)
    (hbad : parse content = none) :
    load_state none parse = { used_urls := [], last_run := none }
    ∧ load_state (some content) parse = { used_urls := [], last_run := none } := by
  constructor
  · rfl
  · simp [load_state, hbad]

theorem load_state_defaults_witness :
    load_state none (fun _ => none) = { used_urls := [], last_run := none }
    ∧ load_state (some "not json") (fun _ => none) =
        { used_urls := [], last_run := none } :=
  load_state_defaults (fun _ => none) "not json" rfl

/-! ## `update_feed` (rss_feed.py lines 240-274) and the render cap
(rss_feed.py lines 87-91) -/

/-- An episode record as carried through `update_feed`: the merge logic keys
on `guid`; the remaining fields stand for the rest of the metadata
dictionary. -/
structure Episode where
  guid : String
  title : String
  description : String
  url : String
deriving DecidableEq, Repr

/-- The update loop: replace the first episode whose guid matches, then
`break`. -/
def replaceByGuid (g : String) (newEp : Episode) : List Episode → List Episode
  | [] => []
  | ep :: rest =>
    if ep.guid = g then newEp :: rest else ep :: replaceByGuid g newEp rest

/-- `update_feed` on the episode list: `if new_guid and new_guid in
existing_guids` replace in place, else insert at the front. -/
def update_feed (existing : List Episode) (newEp : Episode) : List Episode :=
  if newEp.guid ≠ "" ∧ newEp.guid ∈ existing.map (·.guid) then
    replaceByGuid newEp.guid newEp existing
  else newEp :: existing

/-- `create_feed_xml` renders only `episodes[:max_episodes]`. -/
def renderedEpisodes (maxEpisodes : Nat) (episodes : List Episode) : List Episode :=
  episodes.take maxEpisodes

theorem countP_eq_one_of_nodup {l : List String} (hn : l.Nodup) {a : String}
    (ha : a ∈ l) : l.countP (fun s => decide (s = a)) = 1 := by
  induction l with
  | nil => cases ha
  | cons b l ih =>
    rw [List.countP_cons]
    rcases List.mem_cons.mp ha with rfl | hmem
    · have hnotin := (List.nodup_cons.mp hn).1
      have h0 : l.countP (fun s => decide (s = a)) = 0 := by
        rw [List.countP_eq_zero]
        intro x hx
        simp only [decide_eq_true_eq]
        rintro rfl
        exact hnotin hx
      simp [h0]
    · have hne : ¬ (b = a) := by
        rintro rfl
        exact (List.nodup_cons.mp hn).1 hmem
      simp [ih (List.nodup_cons.mp hn).2 hmem, hne]

theorem replaceByGuid_of_mem (newEp : Episode) :
    ∀ existing : List Episode,
      (existing.map (·.guid)).Nodup →
      newEp.guid ∈ existing.map (·.guid) →
      ∃ i, ∃ h : i < existing.length,
        (existing.get ⟨i, h⟩).guid = newEp.guid ∧
        replaceByGuid newEp.guid newEp existing = existing.set i newEp := by
  intro existing
  induction existing with
  | nil => intro _ h; simp at h
  | cons ep rest ih =>
    intro hnodup hmem
    by_cases hg : ep.guid = newEp.guid
    · exact ⟨0, Nat.succ_pos _, hg, by simp [replaceByGuid, hg]⟩
    · have hmem' : newEp.guid ∈ rest.map (·.guid) := by
        rcases List.mem_map.mp hmem with ⟨e, he, hge⟩
        rcases List.mem_cons.mp he with rfl | he2
        · exact absurd hge hg
        · exact List.mem_map.mpr ⟨e, he2, hge⟩
      have hnodup' : (rest.map (·.guid)).Nodup := (List.nodup_cons.mp hnodup).2
      obtain ⟨i, hi, hgi, heq⟩ := ih hnodup' hmem'
      refine ⟨i + 1, Nat.succ_lt_succ hi, hgi, ?_⟩
      simp [replaceByGuid, hg, heq]

/-- C5: with pairwise-distinct existing GUIDs and a non-empty new GUID, the
merged list replaces in place on a GUID collision (same position, same
length, exactly one episode with that GUID, carrying the new record) and
prepends otherwise, keeping every existing episode; the rendered feed is the
merged list truncated to `max_episodes`, most-recent-first. -/
theorem update_feed_correct (existing : List Episode) (newEp : Episode)
    (hnodup : (existing.map (·.guid)).Nodup) (hg : newEp.guid ≠ "") :
    (newEp.guid ∈ existing.map (·.guid) →
      ∃ i, ∃ h : i < existing.length,
        (existing.get ⟨i, h⟩).guid = newEp.guid ∧
        update_feed existing newEp = existing.set i newEp ∧
        (update_feed existing newEp).length = existing.length ∧
        (update_feed existing newEp).countP (fun e => decide (e.guid = newEp.guid)) = 1 ∧
        newEp ∈ update_feed existing newEp)
    ∧ (newEp.guid ∉ existing.map (·.guid) →
        update_feed existing newEp = newEp :: existing)
    ∧ (∀ m, renderedEpisodes m (update_feed existing newEp) =
        (update_feed existing newEp).take m) := by
  refine ⟨?_, ?_, fun _ => rfl⟩
  · intro hmem
    obtain ⟨i, hi, hgi, heq⟩ := replaceByGuid_of_mem newEp existing hnodup hmem
    have hupd : update_feed existing newEp = existing.set i newEp := by
      rw [update_feed, if_pos ⟨hg, hmem⟩, heq]
    refine ⟨i, hi, hgi, hupd, by simp [hupd], ?_, ?_⟩
    · rw [hupd]
      have hset : existing.set i newEp =
          existing.take i ++ newEp :: existing.drop (i + 1) := by
        rw [List.set_eq_take_append_cons_drop]
        simp [hi]
      have hcountP : existing.countP (fun e => decide (e.guid = newEp.guid)) = 1 := by
        have hmap := countP_eq_one_of_nodup hnodup hmem
        rw [List.countP_map] at hmap
        simpa [Function.comp] using hmap
      have hexsplit : existing =
          existing.take i ++ existing.get ⟨i, hi⟩ :: existing.drop (i + 1) := by
        conv_lhs => rw [← List.take_append_drop i existing]
        rw [List.drop_eq_getElem_cons hi]
        rfl
      rw [hexsplit, List.countP_append, List.countP_cons] at hcountP
      rw [hset, List.countP_append, List.countP_cons]
      have hif : decide ((existing.get ⟨i, hi⟩).guid = newEp.guid) = true :=
        decide_eq_true hgi
      rw [hif] at hcountP
      have hif2 : decide (newEp.guid = newEp.guid) = true := by simp
      rw [hif2]
      omega
    · rw [hupd]
      have hset : existing.set i newEp =
          existing.take i ++ newEp :: existing.drop (i + 1) := by
        rw [List.set_eq_take_append_cons_drop]
        simp [hi]
      rw [hset]
      simp
  · intro hnmem
    rw [update_feed, if_neg (fun hc => hnmem hc.2)]

/-! ## `run_pipeline` (run_daily.py lines 232-445)

The orchestrator's control flow, as an effect trace.  The run is
parametrised by what the earlier steps produced: `dryRun` (the CLI flag),
`nSelected` (`len(selected)` after filter/select) and `r2Ok` (the result of
`check_r2_connection`).  `fetchWeather`/`fetchRss` are the read-only
steps 3-4; every effect from `writeTranscriptSite` on writes to the
published `site/` directory or to object storage.  Exceptions are outside
this model: the trace follows the code's straight-line order. -/

inductive PipelineEffect where
  | fetchWeather            -- step 3
  | fetchRss                -- step 4
  | genScript               -- step 6, generate_script
  | writeTranscriptSite     -- save_transcript writes site/scripts/<date>.txt
  | uploadTranscriptStorage -- upload_transcript_to_r2
  | synthesizeAudio         -- step 7, synthesize_mp3
  | uploadAudioStorage      -- upload_mp3_to_r2
  | writeFeedSite           -- save_feed on site/feed.xml
  | writeSiteIndex          -- save_index_html on site/index.html
  | writeState              -- save_state on state.json
deriving DecidableEq, Repr

/-- Effects that publish: writes to object storage or to the site tree. -/
def isPublishEffect : PipelineEffect → Bool
  | .writeTranscriptSite => true
  | .uploadTranscriptStorage => true
  | .uploadAudioStorage => true
  | .writeFeedSite => true
  | .writeSiteIndex => true
  | .writeState => true
  | _ => false

/-- `run_pipeline`: returns the boolean result and the ordered effect
trace.  The `len(selected) == 0` check aborts at step 5; the
`check_r2_connection` check sits in step 8, after the transcript has been
saved and uploaded in step 6. -/
def run_pipeline (dryRun : Bool) (nSelected : Nat) (r2Ok : Bool) :
    Bool × List PipelineEffect :=
  let t0 := [PipelineEffect.fetchWeather, PipelineEffect.fetchRss]
  if nSelected = 0 then (false, t0)
  else
    let t1 := t0 ++ [PipelineEffect.genScript, PipelineEffect.writeTranscriptSite]
    let t2 := if dryRun then t1 else t1 ++ [PipelineEffect.uploadTranscriptStorage]
    let t3 := if dryRun then t2 else t2 ++ [PipelineEffect.synthesizeAudio]
    if !dryRun && !r2Ok then (false, t3)
    else
      let t4 := if dryRun then t3 else t3 ++ [PipelineEffect.uploadAudioStorage]
      (true, t4 ++ [PipelineEffect.writeFeedSite, PipelineEffect.writeSiteIndex,
        PipelineEffect.writeState])

/-- C8 counterexample: on a live run where the storage connectivity check
fails, the pipeline does report failure, but the transcript has already been
written to the site directory and uploaded to object storage before the
check runs — contradicting "no transcript has been written to storage or to
the published site before it returns". -/
theorem run_pipeline_transcript_before_check :
    (run_pipeline false 3 false).1 = false
    ∧ PipelineEffect.uploadTranscriptStorage ∈ (run_pipeline false 3 false).2
    ∧ PipelineEffect.writeTranscriptSite ∈ (run_pipeline false 3 false).2 := by
  refine ⟨rfl, by decide, by decide⟩

/-- C8 (amended): with zero selected items the pipeline fails before any
publish effect at all; with a failing storage connectivity check it fails
before the audio upload, the feed write, the site-page write and the state
update — but after the transcript has been saved to the site and uploaded. -/
theorem run_pipeline_fatal_aborts (dryRun r2Ok : Bool) (nSelected : Nat) :
    (nSelected = 0 →
      (run_pipeline dryRun nSelected r2Ok).1 = false
      ∧ ∀ e ∈ (run_pipeline dryRun nSelected r2Ok).2, isPublishEffect e = false)
    ∧ (dryRun = false → r2Ok = false → 0 < nSelected →
      (run_pipeline dryRun nSelected r2Ok).1 = false
      ∧ PipelineEffect.uploadAudioStorage ∉ (run_pipeline dryRun nSelected r2Ok).2
      ∧ PipelineEffect.writeFeedSite ∉ (run_pipeline dryRun nSelected r2Ok).2
      ∧ PipelineEffect.writeSiteIndex ∉ (run_pipeline dryRun nSelected r2Ok).2
      ∧ PipelineEffect.writeState ∉ (run_pipeline dryRun nSelected r2Ok).2) := by
  constructor
  · intro h0
    subst h0
    refine ⟨rfl, ?_⟩
    intro e he
    simp only [run_pipeline, if_pos rfl] at he
    rcases List.mem_cons.mp he with rfl | he2
    · rfl
    · rcases List.mem_cons.mp he2 with rfl | he3
      · rfl
      · cases he3
  · intro hdr hok hn
    subst hdr; subst hok
    have hne : ¬ (nSelected = 0) := by omega
    simp only [run_pipeline, if_neg hne]
    refine ⟨rfl, by decide, by decide, by decide, by decide⟩

theorem run_pipeline_fatal_aborts_witness :
    ((run_pipeline true 0 true).1 = false
      ∧ ∀ e ∈ (run_pipeline true 0 true).2, isPublishEffect e = false)
    ∧ ((run_pipeline false 2 false).1 = false
      ∧ PipelineEffect.uploadAudioStorage ∉ (run_pipeline false 2 false).2
      ∧ PipelineEffect.writeFeedSite ∉ (run_pipeline false 2 false).2
      ∧ PipelineEffect.writeSiteIndex ∉ (run_pipeline false 2 false).2
      ∧ PipelineEffect.writeState ∉ (run_pipeline false 2 false).2) :=
  ⟨(run_pipeline_fatal_aborts true true 0).1 rfl,
   (run_pipeline_fatal_aborts false false 2).2 rfl rfl (by omega)⟩

/-! ## `chunk_text` (tts.py lines 10-66)

Text is `List Char`.  `rfindPat` is Python's `str.rfind` (last occurrence,
`-1` when absent); `pyStrip` is `str.strip()` (ASCII whitespace);
the `while remaining` loop is written with explicit fuel, `none` standing
for non-termination within the given fuel. -/

/-- Python `str.strip()` default whitespace (the ASCII part). -/
def isPySpace (c : Char) : Bool :=
  c == ' ' || c == '\t' || c == '\n' || c == '\r' || c == '\x0b' || c == '\x0c'

/-- Trailing-whitespace strip. -/
def stripEnd (s : List Char) : List Char := (s.reverse.dropWhile isPySpace).reverse

/-- Python `s.strip()`. -/
def pyStrip (s : List Char) : List Char := stripEnd (s.dropWhile isPySpace)

/-- Search downward from `i` for the last occurrence of `pat`. -/
def rfindOpt (pat s : List Char) : Nat → Option Nat
  | 0 => if patAt pat s 0 then some 0 else none
  | i + 1 => if patAt pat s (i + 1) then some (i + 1) else rfindOpt pat s i

/-- Python `s.rfind(pat)` for non-empty `pat`. -/
def rfindPat (s pat : List Char) : Int :=
  match rfindOpt pat s s.length with
  | none => -1
  | some i => (i : Int)

/-- `['. ', '! ', '? ', '.\n', '!\n', '?\n']`. -/
def sentencePats : List (List Char) :=
  [['.', ' '], ['!', ' '], ['?', ' '], ['.', '\n'], ['!', '\n'], ['?', '\n']]

/-- `[', ', '; ', ',\n', ';\n']`. -/
def clausePats : List (List Char) :=
  [[',', ' '], [';', ' '], [',', '\n'], [';', '\n']]

/-- One `for pattern in [...]` scan: take `pos + 1` whenever
`pos > split_pos and pos >= max_chars // 2`. -/
def scanPats (chunk : List Char) (m2 : Int) (pats : List (List Char)) (sp : Int) : Int :=
  pats.foldl (fun sp pat =>
    let pos := rfindPat chunk pat
    if sp < pos ∧ m2 ≤ pos then pos + 1 else sp) sp

/-- `split_pos` after the paragraph, sentence, clause and word-boundary
stages (still `-1` when nothing was found). -/
def natBreak (chunk : List Char) (m2 : Int) : Int :=
  let sp0 := rfindPat chunk ['\n', '\n']
  let sp1 := if sp0 = -1 ∨ sp0 < m2 then scanPats chunk m2 sentencePats sp0 else sp0
  let sp2 := if sp1 = -1 ∨ sp1 < m2 then scanPats chunk m2 clausePats sp1 else sp1
  if sp2 = -1 ∨ sp2 < m2 then rfindPat chunk [' '] else sp2

/-- The final `split_pos`: the hard cut `split_pos = max_chars` when no
stage found anything. -/
def splitPos (chunk : List Char) (maxChars : Nat) : Int :=
  if natBreak chunk ((maxChars / 2 : Nat) : Int) = -1 then (maxChars : Int)
  else natBreak chunk ((maxChars / 2 : Nat) : Int)

/-- One loop iteration: the appended chunk `remaining[:split_pos].strip()`
and the new `remaining[split_pos:].strip()`. -/
def chunkStep (maxChars : Nat) (remaining : List Char) : List Char × List Char :=
  let chunk := remaining.take maxChars
  let sp := (splitPos chunk maxChars).toNat
  (pyStrip (remaining.take sp), pyStrip (remaining.drop sp))

/-- The `while remaining:` loop, with fuel. -/
def chunkLoop (maxChars : Nat) : Nat → List Char → Option (List (List Char))
  | 0, _ => none
  | fuel + 1, remaining =>
    if remaining = [] then some []
    else if remaining.length ≤ maxChars then some [remaining]
    else
      match chunkLoop maxChars fuel (chunkStep maxChars remaining).2 with
      | none => none
      | some cs => some ((chunkStep maxChars remaining).1 :: cs)

/-- `chunk_text(text, max_chars)` from tts.py: early return of `[text]` for
short input, otherwise the loop followed by the empty-chunk filter. -/
def chunk_text (text : List Char) (maxChars : Nat) : List (List Char) :=
  if text.length ≤ maxChars then [text]
  else ((chunkLoop maxChars (text.length + 1) text).getD []).filter
    (fun c => !c.isEmpty)

theorem patAt_add_le {pat s : List Char} {i : Nat} (h : patAt pat s i = true)
    (hne : pat ≠ []) : i + pat.length ≤ s.length := by
  have heq : (s.drop i).take pat.length = pat := of_decide_eq_true h
  have hlen := congrArg List.length heq
  rw [List.length_take, List.length_drop] at hlen
  have hpos : 0 < pat.length := List.length_pos.mpr hne
  rcases Nat.le_total pat.length (s.length - i) with hc | hc
  · rw [Nat.min_eq_left hc] at hlen
    omega
  · rw [Nat.min_eq_right hc] at hlen
    omega

theorem rfindOpt_some {pat s : List Char} :
    ∀ {i k : Nat}, rfindOpt pat s i = some k → patAt pat s k = true ∧ k ≤ i := by
  intro i
  induction i with
  | zero =>
    intro k h
    by_cases hp : patAt pat s 0 = true
    · simp only [rfindOpt, if_pos hp, Option.some.injEq] at h
      subst h; exact ⟨hp, le_refl 0⟩
    · simp [rfindOpt, hp] at h
  | succ i ih =>
    intro k h
    by_cases hp : patAt pat s (i + 1) = true
    · simp only [rfindOpt, if_pos hp, Option.some.injEq] at h
      subst h; exact ⟨hp, le_refl _⟩
    · simp only [rfindOpt, if_neg hp] at h
      obtain ⟨h1, h2⟩ := ih h
      exact ⟨h1, Nat.le_succ_of_le h2⟩

theorem rfindOpt_none {pat s : List Char} :
    ∀ {i : Nat}, rfindOpt pat s i = none → ∀ j ≤ i, patAt pat s j = false := by
  intro i
  induction i with
  | zero =>
    intro h j hj
    interval_cases j
    by_cases hp : patAt pat s 0 = true
    · simp [rfindOpt, hp] at h
    · exact Bool.not_eq_true _ |>.mp hp
  | succ i ih =>
    intro h j hj
    by_cases hp : patAt pat s (i + 1) = true
    · simp [rfindOpt, hp] at h
    · simp only [rfindOpt, if_neg hp] at h
      rcases Nat.lt_or_ge j (i + 1) with hlt | hge
      · exact ih h j (by omega)
      · have : j = i + 1 := by omega
        subst this
        exact Bool.not_eq_true _ |>.mp hp

theorem rfindOpt_ge {pat s : List Char} {j : Nat} (hj : patAt pat s j = true) :
    ∀ {i : Nat}, j ≤ i → ∃ k, rfindOpt pat s i = some k ∧ j ≤ k := by
  intro i
  induction i with
  | zero =>
    intro hji
    have : j = 0 := by omega
    subst this
    exact ⟨0, by simp [rfindOpt, hj], le_refl 0⟩
  | succ i ih =>
    intro hji
    by_cases hp : patAt pat s (i + 1) = true
    · exact ⟨i + 1, by simp [rfindOpt, hp], hji⟩
    · have hne : j ≠ i + 1 := by
        rintro rfl; exact hp hj
      obtain ⟨k, hk, hjk⟩ := ih (by omega)
      exact ⟨k, by simp [rfindOpt, hp, hk], hjk⟩

theorem rfindPat_shape (s pat : List Char) :
    rfindPat s pat = -1 ∨ 0 ≤ rfindPat s pat := by
  unfold rfindPat
  cases rfindOpt pat s s.length with
  | none => left; rfl
  | some k => right; exact Int.ofNat_nonneg k

theorem rfindPat_ge_neg_one (s pat : List Char) : -1 ≤ rfindPat s pat := by
  rcases rfindPat_shape s pat with h | h <;> omega

theorem rfindPat_neg_one {s pat : List Char} (h : rfindPat s pat = -1)
    (hne : pat ≠ []) : ∀ j, patAt pat s j = false := by
  intro j
  by_cases hp : patAt pat s j = true
  · exfalso
    have hjs : j ≤ s.length := by
      have h1 := patAt_add_le hp hne
      have h2 := List.length_pos.mpr hne
      omega
    obtain ⟨k, hk, _⟩ := rfindOpt_ge hp hjs
    unfold rfindPat at h
    rw [hk] at h
    have : (k : Int) = -1 := h
    omega
  · exact Bool.not_eq_true _ |>.mp hp

theorem rfindPat_patAt {s pat : List Char} (h : 0 ≤ rfindPat s pat) :
    patAt pat s (rfindPat s pat).toNat = true := by
  rcases hopt : rfindOpt pat s s.length with _ | k
  · exfalso
    unfold rfindPat at h
    rw [hopt] at h
    have : (0 : Int) ≤ -1 := h
    omega
  · have h1 := (rfindOpt_some hopt).1
    unfold rfindPat
    rw [hopt]
    show patAt pat s ((k : Int)).toNat = true
    simpa using h1

theorem rfindPat_ge_of_patAt {s pat : List Char} {j : Nat}
    (hj : patAt pat s j = true) (hne : pat ≠ []) : (j : Int) ≤ rfindPat s pat := by
  have hjs : j ≤ s.length := by
    have h1 := patAt_add_le hj hne
    have h2 := List.length_pos.mpr hne
    omega
  obtain ⟨k, hk, hjk⟩ := rfindOpt_ge hj hjs
  unfold rfindPat
  rw [hk]
  show (j : Int) ≤ (k : Int)
  exact_mod_cast hjk

theorem rfindPat_add_le {s pat : List Char} (h : 0 ≤ rfindPat s pat)
    (hne : pat ≠ []) : rfindPat s pat + pat.length ≤ (s.length : Int) := by
  have hp := rfindPat_patAt h
  have := patAt_add_le hp hne
  omega

theorem scanPats_cons (chunk : List Char) (m2 : Int) (p : List Char)
    (ps : List (List Char)) (sp : Int) :
    scanPats chunk m2 (p :: ps) sp =
      scanPats chunk m2 ps
        (if sp < rfindPat chunk p ∧ m2 ≤ rfindPat chunk p then rfindPat chunk p + 1
         else sp) := rfl

theorem scanPats_ge (chunk : List Char) (m2 : Int) :
    ∀ (ps : List (List Char)) (sp : Int), sp ≤ scanPats chunk m2 ps sp := by
  intro ps
  induction ps with
  | nil => intro sp; exact le_refl sp
  | cons p ps ih =>
    intro sp
    rw [scanPats_cons]
    by_cases hc : sp < rfindPat chunk p ∧ m2 ≤ rfindPat chunk p
    · rw [if_pos hc]
      have h1 := ih (rfindPat chunk p + 1)
      omega
    · rw [if_neg hc]
      exact ih sp

theorem scanPats_eq_or_one_le (chunk : List Char) {m2 : Int} (hm2 : 0 ≤ m2) :
    ∀ (ps : List (List Char)) (sp : Int),
      scanPats chunk m2 ps sp = sp ∨ 1 ≤ scanPats chunk m2 ps sp := by
  intro ps
  induction ps with
  | nil => intro sp; left; rfl
  | cons p ps ih =>
    intro sp
    rw [scanPats_cons]
    by_cases hc : sp < rfindPat chunk p ∧ m2 ≤ rfindPat chunk p
    · rw [if_pos hc]
      right
      have h1 := scanPats_ge chunk m2 ps (rfindPat chunk p + 1)
      omega
    · rw [if_neg hc]
      exact ih sp

theorem scanPats_le (chunk : List Char) {m2 : Int} (hm2 : 0 ≤ m2) :
    ∀ (ps : List (List Char)), (∀ pat ∈ ps, pat.length = 2) →
      ∀ sp : Int, scanPats chunk m2 ps sp ≤ max sp ((chunk.length : Int) - 1) := by
  intro ps
  induction ps with
  | nil => intro _ sp; exact le_max_left _ _
  | cons p ps ih =>
    intro hlen sp
    rw [scanPats_cons]
    by_cases hc : sp < rfindPat chunk p ∧ m2 ≤ rfindPat chunk p
    · rw [if_pos hc]
      have hpos : 0 ≤ rfindPat chunk p := le_trans hm2 hc.2
      have hne : p ≠ [] := by
        intro h
        have := hlen p (List.mem_cons_self p ps)
        rw [h] at this
        simp at this
      have hadd := rfindPat_add_le hpos hne
      rw [hlen p (List.mem_cons_self p ps)] at hadd
      have hbound : rfindPat chunk p + 1 ≤ (chunk.length : Int) - 1 := by
        push_cast at hadd ⊢
        omega
      have := ih (fun pat hpat => hlen pat (List.mem_cons_of_mem p hpat))
        (rfindPat chunk p + 1)
      have hmax : max (rfindPat chunk p + 1) ((chunk.length : Int) - 1) =
          (chunk.length : Int) - 1 := max_eq_right hbound
      rw [hmax] at this
      exact le_trans this (le_max_right _ _)
    · rw [if_neg hc]
      exact ih (fun pat hpat => hlen pat (List.mem_cons_of_mem p hpat)) sp

theorem scanPats_ge_m2_of_hit (chunk : List Char) {m2 : Int} (hm2 : 0 ≤ m2)
    {pat : List Char} :
    ∀ (ps : List (List Char)), pat ∈ ps → m2 ≤ rfindPat chunk pat →
      ∀ sp : Int, m2 ≤ scanPats chunk m2 ps sp := by
  intro ps
  induction ps with
  | nil => intro hmem; cases hmem
  | cons p ps ih =>
    intro hmem hge sp
    rw [scanPats_cons]
    rcases List.mem_cons.mp hmem with rfl | hmem2
    · by_cases hc : sp < rfindPat chunk pat ∧ m2 ≤ rfindPat chunk pat
      · rw [if_pos hc]
        have := scanPats_ge chunk m2 ps (rfindPat chunk pat + 1)
        omega
      · rw [if_neg hc]
        have hsp : m2 ≤ sp := by
          rcases not_and_or.mp hc with h1 | h2
          · omega
          · exact absurd hge h2
        have := scanPats_ge chunk m2 ps sp
        omega
    · exact ih hmem2 hge _

theorem natBreak_cases (chunk : List Char) (m2 : Int) :
    ∃ sp1 sp2 : Int,
      sp1 = (if rfindPat chunk ['\n', '\n'] = -1 ∨ rfindPat chunk ['\n', '\n'] < m2
             then scanPats chunk m2 sentencePats (rfindPat chunk ['\n', '\n'])
             else rfindPat chunk ['\n', '\n'])
      ∧ sp2 = (if sp1 = -1 ∨ sp1 < m2 then scanPats chunk m2 clausePats sp1 else sp1)
      ∧ natBreak chunk m2 =
          (if sp2 = -1 ∨ sp2 < m2 then rfindPat chunk [' '] else sp2) :=
  ⟨_, _, rfl, rfl, rfl⟩

theorem natBreak_ge_neg_one (chunk : List Char) (m2 : Int) :
    -1 ≤ natBreak chunk m2 := by
  obtain ⟨sp1, sp2, h1, h2, h3⟩ := natBreak_cases chunk m2
  have hsp0 := rfindPat_ge_neg_one chunk ['\n', '\n']
  have hsp1 : -1 ≤ sp1 := by
    rw [h1]
    by_cases hc : rfindPat chunk ['\n', '\n'] = -1 ∨ rfindPat chunk ['\n', '\n'] < m2
    · rw [if_pos hc]
      have := scanPats_ge chunk m2 sentencePats (rfindPat chunk ['\n', '\n'])
      omega
    · rw [if_neg hc]; exact hsp0
  have hsp2 : -1 ≤ sp2 := by
    rw [h2]
    by_cases hc : sp1 = -1 ∨ sp1 < m2
    · rw [if_pos hc]
      have := scanPats_ge chunk m2 clausePats sp1
      omega
    · rw [if_neg hc]; exact hsp1
  rw [h3]
  by_cases hc : sp2 = -1 ∨ sp2 < m2
  · rw [if_pos hc]; exact rfindPat_ge_neg_one chunk [' ']
  · rw [if_neg hc]; exact hsp2

theorem natBreak_le (chunk : List Char) {m2 : Int} (hm2 : 0 ≤ m2) :
    natBreak chunk m2 ≤ (chunk.length : Int) - 1 := by
  obtain ⟨sp1, sp2, h1, h2, h3⟩ := natBreak_cases chunk m2
  have hlen0 : (0 : Int) ≤ (chunk.length : Int) := Int.ofNat_nonneg _
  have hsp0 : rfindPat chunk ['\n', '\n'] ≤ (chunk.length : Int) - 1 := by
    rcases rfindPat_shape chunk ['\n', '\n'] with h | h
    · omega
    · have := rfindPat_add_le h (by simp)
      simp only [List.length_cons, List.length_nil] at this
      push_cast at this
      omega
  have hsent : ∀ pat ∈ sentencePats, pat.length = 2 := by
    intro pat hpat
    simp only [sentencePats, List.mem_cons, List.not_mem_nil, or_false] at hpat
    rcases hpat with rfl | rfl | rfl | rfl | rfl | rfl <;> rfl
  have hclause : ∀ pat ∈ clausePats, pat.length = 2 := by
    intro pat hpat
    simp only [clausePats, List.mem_cons, List.not_mem_nil, or_false] at hpat
    rcases hpat with rfl | rfl | rfl | rfl <;> rfl
  have hsp1 : sp1 ≤ (chunk.length : Int) - 1 := by
    rw [h1]
    by_cases hc : rfindPat chunk ['\n', '\n'] = -1 ∨ rfindPat chunk ['\n', '\n'] < m2
    · rw [if_pos hc]
      have := scanPats_le chunk hm2 sentencePats hsent (rfindPat chunk ['\n', '\n'])
      have hmax : max (rfindPat chunk ['\n', '\n']) ((chunk.length : Int) - 1) =
          (chunk.length : Int) - 1 := max_eq_right hsp0
      rw [hmax] at this
      exact this
    · rw [if_neg hc]; exact hsp0
  have hsp2 : sp2 ≤ (chunk.length : Int) - 1 := by
    rw [h2]
    by_cases hc : sp1 = -1 ∨ sp1 < m2
    · rw [if_pos hc]
      have := scanPats_le chunk hm2 clausePats hclause sp1
      have hmax : max sp1 ((chunk.length : Int) - 1) = (chunk.length : Int) - 1 :=
        max_eq_right hsp1
      rw [hmax] at this
      exact this
    · rw [if_neg hc]; exact hsp1
  rw [h3]
  by_cases hc : sp2 = -1 ∨ sp2 < m2
  · rw [if_pos hc]
    rcases rfindPat_shape chunk [' '] with h | h
    · omega
    · have := rfindPat_add_le h (by simp)
      simp only [List.length_cons, List.length_nil] at this
      push_cast at this
      omega
  · rw [if_neg hc]; exact hsp2

theorem splitPos_le {chunk : List Char} {maxChars : Nat}
    (hlen : chunk.length ≤ maxChars) :
    splitPos chunk maxChars ≤ (maxChars : Int) := by
  unfold splitPos
  by_cases hc : natBreak chunk ((maxChars / 2 : Nat) : Int) = -1
  · rw [if_pos hc]
  · rw [if_neg hc]
    have := natBreak_le chunk (Int.ofNat_nonneg (maxChars / 2))
    have hcast : (chunk.length : Int) ≤ (maxChars : Int) := by exact_mod_cast hlen
    omega

theorem splitPos_nonneg (chunk : List Char) (maxChars : Nat) :
    0 ≤ splitPos chunk maxChars := by
  unfold splitPos
  by_cases hc : natBreak chunk ((maxChars / 2 : Nat) : Int) = -1
  · rw [if_pos hc]
    exact Int.ofNat_nonneg _
  · rw [if_neg hc]
    have := natBreak_ge_neg_one chunk ((maxChars / 2 : Nat) : Int)
    omega

theorem splitPos_eq_zero {chunk : List Char} {maxChars : Nat}
    (hmax : 1 ≤ maxChars) (h : splitPos chunk maxChars = 0) :
    patAt [' '] chunk 0 = true ∨ patAt ['\n', '\n'] chunk 0 = true := by
  set m2 : Int := ((maxChars / 2 : Nat) : Int) with hm2def
  have hm2 : 0 ≤ m2 := Int.ofNat_nonneg _
  unfold splitPos at h
  by_cases hnb : natBreak chunk m2 = -1
  · rw [if_pos hnb] at h
    have : (1 : Int) ≤ (maxChars : Int) := by exact_mod_cast hmax
    omega
  · rw [if_neg hnb] at h
    obtain ⟨sp1, sp2, h1, h2, h3⟩ := natBreak_cases chunk m2
    rw [h3] at h
    by_cases hc2 : sp2 = -1 ∨ sp2 < m2
    · rw [if_pos hc2] at h
      left
      have hp := rfindPat_patAt (show (0 : Int) ≤ rfindPat chunk [' '] by omega)
      rw [h] at hp
      simpa using hp
    · rw [if_neg hc2] at h
      right
      have hsp1 : sp1 = 0 := by
        rw [h2] at h
        by_cases hc1 : sp1 = -1 ∨ sp1 < m2
        · rw [if_pos hc1] at h
          rcases scanPats_eq_or_one_le chunk hm2 clausePats sp1 with he | hge
          · rw [he] at h; exact h
          · omega
        · rw [if_neg hc1] at h; exact h
      have hsp0 : rfindPat chunk ['\n', '\n'] = 0 := by
        rw [hsp1] at h1
        by_cases hc0 : rfindPat chunk ['\n', '\n'] = -1 ∨ rfindPat chunk ['\n', '\n'] < m2
        · rw [if_pos hc0] at h1
          rcases scanPats_eq_or_one_le chunk hm2 sentencePats
            (rfindPat chunk ['\n', '\n']) with he | hge
          · rw [he] at h1; exact h1.symm
          · omega
        · rw [if_neg hc0] at h1; exact h1.symm
      have hp := rfindPat_patAt (show (0 : Int) ≤ rfindPat chunk ['\n', '\n'] by omega)
      rw [hsp0] at hp
      simpa using hp

theorem splitPos_hard_cut {chunk : List Char} {maxChars : Nat}
    (hmax : 1 ≤ maxChars) (hlen : chunk.length ≤ maxChars)
    (h : splitPos chunk maxChars = maxChars) :
    (∀ i, patAt [' '] chunk i = false)
    ∧ (∀ pat ∈ sentencePats ++ clausePats, ∀ i, maxChars / 2 ≤ i →
        patAt pat chunk i = false)
    ∧ (∀ i, maxChars / 2 ≤ i → patAt ['\n', '\n'] chunk i = false) := by
  set m2 : Int := ((maxChars / 2 : Nat) : Int) with hm2def
  have hm2 : 0 ≤ m2 := Int.ofNat_nonneg _
  have hnb : natBreak chunk m2 = -1 := by
    by_contra hne
    unfold splitPos at h
    rw [← hm2def] at h
    rw [if_neg hne] at h
    have hle := natBreak_le chunk hm2
    have hcast : (chunk.length : Int) ≤ (maxChars : Int) := by exact_mod_cast hlen
    omega
  obtain ⟨sp1, sp2, h1, h2, h3⟩ := natBreak_cases chunk m2
  rw [h3] at hnb
  have hc2 : sp2 = -1 ∨ sp2 < m2 := by
    by_contra hc
    rw [if_neg hc] at hnb
    exact (not_or.mp hc).1 hnb
  rw [if_pos hc2] at hnb
  have hspace : ∀ i, patAt [' '] chunk i = false :=
    rfindPat_neg_one hnb (by simp)
  refine ⟨hspace, ?_, ?_⟩
  · intro pat hpat i hi
    by_contra hp
    have hp' : patAt pat chunk i = true := by
      simpa using hp
    have hpne : pat ≠ [] := by
      intro hnil
      subst hnil
      simp [sentencePats, clausePats] at hpat
    have hfind : m2 ≤ rfindPat chunk pat := by
      have := rfindPat_ge_of_patAt hp' hpne
      have hcast : m2 ≤ (i : Int) := by
        rw [hm2def]
        exact_mod_cast hi
      omega
    rcases List.mem_append.mp hpat with hs | hcl
    · -- sentence pattern found at or past the midpoint
      have hsp1 : m2 ≤ sp1 := by
        rw [h1]
        by_cases hc0 : rfindPat chunk ['\n', '\n'] = -1 ∨ rfindPat chunk ['\n', '\n'] < m2
        · rw [if_pos hc0]
          exact scanPats_ge_m2_of_hit chunk hm2 sentencePats hs hfind _
        · rw [if_neg hc0]
          exact le_of_not_lt (not_or.mp hc0).2
      have hsp2 : m2 ≤ sp2 := by
        rw [h2]
        have hnc1 : ¬ (sp1 = -1 ∨ sp1 < m2) := by
          rintro (he | hlt) <;> omega
        rw [if_neg hnc1]
        exact hsp1
      rcases hc2 with he | hlt <;> omega
    · -- clause pattern found at or past the midpoint
      have hsp2 : m2 ≤ sp2 := by
        rw [h2]
        by_cases hc1 : sp1 = -1 ∨ sp1 < m2
        · rw [if_pos hc1]
          exact scanPats_ge_m2_of_hit chunk hm2 clausePats hcl hfind _
        · rw [if_neg hc1]
          exact le_of_not_lt (not_or.mp hc1).2
      rcases hc2 with he | hlt <;> omega
  · intro i hi
    by_contra hp
    have hp' : patAt ['\n', '\n'] chunk i = true := by
      simpa using hp
    have hfind : m2 ≤ rfindPat chunk ['\n', '\n'] := by
      have := rfindPat_ge_of_patAt hp' (by simp)
      have hcast : m2 ≤ (i : Int) := by
        rw [hm2def]
        exact_mod_cast hi
      omega
    have hnc0 : ¬ (rfindPat chunk ['\n', '\n'] = -1 ∨ rfindPat chunk ['\n', '\n'] < m2) := by
      rintro (he | hlt) <;> omega
    have hsp1 : sp1 = rfindPat chunk ['\n', '\n'] := by
      rw [h1, if_neg hnc0]
    have hsp2 : sp2 = rfindPat chunk ['\n', '\n'] := by
      rw [h2, hsp1]
      have hnc1 : ¬ (rfindPat chunk ['\n', '\n'] = -1 ∨ rfindPat chunk ['\n', '\n'] < m2) :=
        hnc0
      rw [if_neg hnc1]
    rcases hc2 with he | hlt <;> omega

theorem length_stripEnd_le (s : List Char) : (stripEnd s).length ≤ s.length := by
  unfold stripEnd
  rw [List.length_reverse]
  calc (s.reverse.dropWhile isPySpace).length
      ≤ s.reverse.length := (List.dropWhile_sublist _).length_le
    _ = s.length := List.length_reverse s

theorem length_pyStrip_le (s : List Char) : (pyStrip s).length ≤ s.length := by
  unfold pyStrip
  calc (stripEnd (s.dropWhile isPySpace)).length
      ≤ (s.dropWhile isPySpace).length := length_stripEnd_le _
    _ ≤ s.length := (List.dropWhile_sublist _).length_le

theorem length_pyStrip_lt_of_space_head {c : Char} {s : List Char}
    (hc : isPySpace c = true) : (pyStrip (c :: s)).length < (c :: s).length := by
  unfold pyStrip
  rw [List.dropWhile_cons_of_pos hc]
  calc (stripEnd (s.dropWhile isPySpace)).length
      ≤ (s.dropWhile isPySpace).length := length_stripEnd_le _
    _ ≤ s.length := (List.dropWhile_sublist _).length_le
    _ < (c :: s).length := by simp

/-- A whitespace-only string: everything `str.strip()` may remove. -/
def wsOnly (s : List Char) : Prop := ∀ c ∈ s, isPySpace c = true

theorem wsOnly_nil : wsOnly [] := by intro c hc; cases hc

theorem wsOnly_append {a b : List Char} (ha : wsOnly a) (hb : wsOnly b) :
    wsOnly (a ++ b) := by
  intro c hc
  rcases List.mem_append.mp hc with h | h
  · exact ha c h
  · exact hb c h

theorem dropWhile_ws_decomp (s : List Char) :
    ∃ w, wsOnly w ∧ s = w ++ s.dropWhile isPySpace := by
  refine ⟨s.takeWhile isPySpace, ?_, (List.takeWhile_append_dropWhile ..).symm⟩
  intro c hc
  exact List.mem_takeWhile_imp hc

theorem stripEnd_decomp (s : List Char) :
    ∃ w, wsOnly w ∧ s = stripEnd s ++ w := by
  refine ⟨(s.reverse.takeWhile isPySpace).reverse, ?_, ?_⟩
  · intro c hc
    exact List.mem_takeWhile_imp (List.mem_reverse.mp hc)
  · unfold stripEnd
    conv_lhs => rw [← List.reverse_reverse s]
    conv_lhs => rw [← List.takeWhile_append_dropWhile isPySpace s.reverse]
    rw [List.reverse_append]

theorem pyStrip_decomp (s : List Char) :
    ∃ w1 w2, wsOnly w1 ∧ wsOnly w2 ∧ s = w1 ++ (pyStrip s ++ w2) := by
  obtain ⟨w1, hw1, he1⟩ := dropWhile_ws_decomp s
  obtain ⟨w2, hw2, he2⟩ := stripEnd_decomp (s.dropWhile isPySpace)
  refine ⟨w1, w2, hw1, hw2, ?_⟩
  conv_lhs => rw [he1, he2]
  rfl

/-- `Interleaves cs s`: `s` is exactly the chunks `cs` in order, with
whitespace-only (possibly empty) filler before, between and after them —
what survives of "concatenation reconstructs the text" once `str.strip()`
has discarded whitespace at every split point. -/
inductive Interleaves : List (List Char) → List Char → Prop
  | nil (w : List Char) : wsOnly w → Interleaves [] w
  | cons (w c : List Char) (cs : List (List Char)) (rest : List Char) :
      wsOnly w → Interleaves cs rest → Interleaves (c :: cs) (w ++ (c ++ rest))

theorem Interleaves.ws_prepend {cs : List (List Char)} {r : List Char}
    (h : Interleaves cs r) {w : List Char} (hw : wsOnly w) :
    Interleaves cs (w ++ r) := by
  induction h with
  | nil w2 hw2 => exact Interleaves.nil (w ++ w2) (wsOnly_append hw hw2)
  | cons w2 c cs2 rest hw2 hrest _ =>
    rw [← List.append_assoc]
    exact Interleaves.cons (w ++ w2) c cs2 rest (wsOnly_append hw hw2) hrest

theorem Interleaves.ws_append {cs : List (List Char)} {r : List Char}
    (h : Interleaves cs r) {w : List Char} (hw : wsOnly w) :
    Interleaves cs (r ++ w) := by
  induction h with
  | nil w' hw' => exact Interleaves.nil (w' ++ w) (wsOnly_append hw' hw)
  | cons w' c cs rest hw' _ ih =>
    rw [List.append_assoc, List.append_assoc]
    exact Interleaves.cons w' c cs (rest ++ w) hw' ih

theorem Interleaves.filter_empties {cs : List (List Char)} {s : List Char}
    (h : Interleaves cs s) :
    Interleaves (cs.filter (fun c => !c.isEmpty)) s := by
  induction h with
  | nil w hw => exact Interleaves.nil w hw
  | cons w c cs rest hw _ ih =>
    by_cases hc : c = []
    · subst hc
      simp only [List.filter_cons, List.isEmpty_nil, Bool.not_true, List.nil_append]
      exact ih.ws_prepend hw
    · have hne : (!c.isEmpty) = true := by
        simp [List.isEmpty_iff, hc]
      simp only [List.filter_cons, hne, if_pos rfl]
      exact Interleaves.cons w c _ rest hw ih

theorem patAt_zero_cons {c0 : Char} {cp : List Char} {c : Char} {t : List Char}
    (h : patAt (c0 :: cp) (c :: t) 0 = true) : c = c0 := by
  have heq : ((c :: t).drop 0).take (c0 :: cp).length = c0 :: cp := of_decide_eq_true h
  simp only [List.drop_zero, List.length_cons, List.take_succ_cons,
    List.cons.injEq] at heq
  exact heq.1

theorem chunkStep_snd_lt {maxChars : Nat} (hmax : 1 ≤ maxChars)
    {remaining : List Char} (hlong : maxChars < remaining.length) :
    (chunkStep maxChars remaining).2.length < remaining.length := by
  have hsnd : (chunkStep maxChars remaining).2 =
      pyStrip (remaining.drop (splitPos (remaining.take maxChars) maxChars).toNat) := rfl
  by_cases hsp0 : (splitPos (remaining.take maxChars) maxChars).toNat = 0
  · have hzero : splitPos (remaining.take maxChars) maxChars = 0 := by
      have h1 := splitPos_nonneg (remaining.take maxChars) maxChars
      have h2 := Int.toNat_eq_zero.mp hsp0
      omega
    have hpat := splitPos_eq_zero hmax hzero
    obtain ⟨r0, rest2, hrem⟩ : ∃ r0 rest2, remaining = r0 :: rest2 := by
      cases remaining with
      | nil => simp at hlong
      | cons a t => exact ⟨a, t, rfl⟩
    obtain ⟨n, hn⟩ : ∃ n, maxChars = n + 1 := ⟨maxChars - 1, by omega⟩
    have hchunk : remaining.take maxChars = r0 :: rest2.take n := by
      rw [hrem, hn, List.take_succ_cons]
    have hws : isPySpace r0 = true := by
      rcases hpat with hp | hp
      · rw [hchunk] at hp
        have := patAt_zero_cons hp
        subst this
        rfl
      · rw [hchunk] at hp
        have := patAt_zero_cons hp
        subst this
        rfl
    rw [hsnd, hsp0, List.drop_zero, hrem]
    exact length_pyStrip_lt_of_space_head hws
  · rw [hsnd]
    have h1 := length_pyStrip_le
      (remaining.drop (splitPos (remaining.take maxChars) maxChars).toNat)
    have h2 := List.length_drop
      (splitPos (remaining.take maxChars) maxChars).toNat remaining
    omega

theorem chunkLoop_succ (maxChars fuel : Nat) (remaining : List Char) :
    chunkLoop maxChars (fuel + 1) remaining =
      if remaining = [] then some []
      else if remaining.length ≤ maxChars then some [remaining]
      else match chunkLoop maxChars fuel (chunkStep maxChars remaining).2 with
        | none => none
        | some cs => some ((chunkStep maxChars remaining).1 :: cs) := rfl

theorem chunkLoop_isSome {maxChars : Nat} (hmax : 1 ≤ maxChars) :
    ∀ (fuel : Nat) (remaining : List Char), remaining.length < fuel →
      (chunkLoop maxChars fuel remaining).isSome = true := by
  intro fuel
  induction fuel with
  | zero => intro remaining h; omega
  | succ n ih =>
    intro remaining hlt
    rw [chunkLoop_succ]
    by_cases h0 : remaining = []
    · rw [if_pos h0]; rfl
    · rw [if_neg h0]
      by_cases h1 : remaining.length ≤ maxChars
      · rw [if_pos h1]; rfl
      · rw [if_neg h1]
        have hlong : maxChars < remaining.length := Nat.lt_of_not_le h1
        have hstep := chunkStep_snd_lt hmax hlong
        have hih := ih (chunkStep maxChars remaining).2 (by omega)
        rcases hres : chunkLoop maxChars n (chunkStep maxChars remaining).2 with _ | cs
        · rw [hres] at hih
          simp at hih
        · rfl

theorem chunkLoop_bound {maxChars : Nat} :
    ∀ (fuel : Nat) (remaining : List Char) (cs : List (List Char)),
      chunkLoop maxChars fuel remaining = some cs →
      ∀ c ∈ cs, c.length ≤ maxChars := by
  intro fuel
  induction fuel with
  | zero => intro remaining cs h; simp [chunkLoop] at h
  | succ n ih =>
    intro remaining cs h
    rw [chunkLoop_succ] at h
    by_cases h0 : remaining = []
    · rw [if_pos h0] at h
      have : cs = [] := by simpa using h.symm
      subst this
      intro c hc
      cases hc
    · rw [if_neg h0] at h
      by_cases h1 : remaining.length ≤ maxChars
      · rw [if_pos h1] at h
        have : cs = [remaining] := by simpa using h.symm
        subst this
        intro c hc
        rcases List.mem_cons.mp hc with rfl | hc2
        · exact h1
        · cases hc2
      · rw [if_neg h1] at h
        rcases hres : chunkLoop maxChars n (chunkStep maxChars remaining).2 with _ | cs2
        · rw [hres] at h; cases h
        · rw [hres] at h
          have hcs : cs = (chunkStep maxChars remaining).1 :: cs2 := by
            simpa using h.symm
          subst hcs
          intro c hc
          rcases List.mem_cons.mp hc with rfl | hc2
          · have hfst : (chunkStep maxChars remaining).1 =
                pyStrip (remaining.take
                  (splitPos (remaining.take maxChars) maxChars).toNat) := rfl
            rw [hfst]
            have hb1 := length_pyStrip_le (remaining.take
              (splitPos (remaining.take maxChars) maxChars).toNat)
            have hb2 := List.length_take_le
              (splitPos (remaining.take maxChars) maxChars).toNat remaining
            have hb3 : (splitPos (remaining.take maxChars) maxChars).toNat ≤ maxChars := by
              have hchlen : (remaining.take maxChars).length ≤ maxChars :=
                List.length_take_le _ _
              have := splitPos_le hchlen
              omega
            omega
          · exact ih (chunkStep maxChars remaining).2 cs2 hres c hc2

theorem chunkLoop_interleaves {maxChars : Nat} :
    ∀ (fuel : Nat) (remaining : List Char) (cs : List (List Char)),
      chunkLoop maxChars fuel remaining = some cs → Interleaves cs remaining := by
  intro fuel
  induction fuel with
  | zero => intro remaining cs h; simp [chunkLoop] at h
  | succ n ih =>
    intro remaining cs h
    rw [chunkLoop_succ] at h
    by_cases h0 : remaining = []
    · rw [if_pos h0] at h
      have : cs = [] := by simpa using h.symm
      subst this
      subst h0
      exact Interleaves.nil [] wsOnly_nil
    · rw [if_neg h0] at h
      by_cases h1 : remaining.length ≤ maxChars
      · rw [if_pos h1] at h
        have : cs = [remaining] := by simpa using h.symm
        subst this
        have hbase := Interleaves.cons [] remaining [] [] wsOnly_nil
          (Interleaves.nil [] wsOnly_nil)
        simpa using hbase
      · rw [if_neg h1] at h
        rcases hres : chunkLoop maxChars n (chunkStep maxChars remaining).2 with _ | cs2
        · rw [hres] at h; cases h
        · rw [hres] at h
          have hcs : cs = (chunkStep maxChars remaining).1 :: cs2 := by
            simpa using h.symm
          subst hcs
          have hrec : Interleaves cs2 (chunkStep maxChars remaining).2 :=
            ih (chunkStep maxChars remaining).2 cs2 hres
          have hfst : (chunkStep maxChars remaining).1 =
              pyStrip (remaining.take
                (splitPos (remaining.take maxChars) maxChars).toNat) := rfl
          have hsnd : (chunkStep maxChars remaining).2 =
              pyStrip (remaining.drop
                (splitPos (remaining.take maxChars) maxChars).toNat) := rfl
          obtain ⟨w1, w2, hw1, hw2, htake⟩ := pyStrip_decomp
            (remaining.take (splitPos (remaining.take maxChars) maxChars).toNat)
          obtain ⟨w3, w4, hw3, hw4, hdrop⟩ := pyStrip_decomp
            (remaining.drop (splitPos (remaining.take maxChars) maxChars).toNat)
          rw [hsnd] at hrec
          have h4 := hrec.ws_append hw4
          have h3 := h4.ws_prepend hw3
          have h2 := h3.ws_prepend hw2
          have hfull := Interleaves.cons w1
            (pyStrip (remaining.take
              (splitPos (remaining.take maxChars) maxChars).toNat)) cs2 _ hw1 h2
          rw [hfst]
          have hremeq : remaining = w1 ++
              (pyStrip (remaining.take
                (splitPos (remaining.take maxChars) maxChars).toNat) ++
              (w2 ++ (w3 ++ (pyStrip (remaining.drop
                (splitPos (remaining.take maxChars) maxChars).toNat) ++ w4)))) := by
            conv_lhs => rw [← List.take_append_drop
              (splitPos (remaining.take maxChars) maxChars).toNat remaining,
              htake, hdrop]
            simp [List.append_assoc]
          rw [← hremeq] at hfull
          exact hfull

theorem chunk_text_sound (text : List Char) (maxChars : Nat) (hmax : 1 ≤ maxChars) :
    (∀ c ∈ chunk_text text maxChars, c.length ≤ maxChars)
    ∧ Interleaves (chunk_text text maxChars) text
    ∧ (text ≠ [] → ∀ c ∈ chunk_text text maxChars, c ≠ []) := by
  by_cases hshort : text.length ≤ maxChars
  · unfold chunk_text
    rw [if_pos hshort]
    refine ⟨?_, ?_, ?_⟩
    · intro c hc
      rcases List.mem_cons.mp hc with rfl | h2
      · exact hshort
      · cases h2
    · have := Interleaves.cons [] text [] [] wsOnly_nil (Interleaves.nil [] wsOnly_nil)
      simpa using this
    · intro htext c hc
      rcases List.mem_cons.mp hc with rfl | h2
      · exact htext
      · cases h2
  · have hsome := chunkLoop_isSome hmax (text.length + 1) text (by omega)
    rcases hres : chunkLoop maxChars (text.length + 1) text with _ | cs
    · rw [hres] at hsome; simp at hsome
    · have hct : chunk_text text maxChars = cs.filter (fun c => !c.isEmpty) := by
        unfold chunk_text
        rw [if_neg hshort, hres]
        rfl
      refine ⟨?_, ?_, ?_⟩
      · intro c hc
        rw [hct] at hc
        exact chunkLoop_bound _ text cs hres c (List.mem_of_mem_filter hc)
      · rw [hct]
        exact (chunkLoop_interleaves _ text cs hres).filter_empties
      · intro _ c hc
        rw [hct] at hc
        have hne := List.of_mem_filter hc
        intro hnil
        subst hnil
        simp at hne

/-- C6 (amended): for `max_chars ≥ 1`, every chunk of `chunk_text` has
length at most `max_chars`; the original text is exactly the chunks in order
with whitespace-only (possibly empty, possibly multi-character) filler
before, between and after them — not a single restorable separator; and no
chunk is empty provided the text itself is non-empty (the early return on an
empty text yields `[""]`). -/
theorem chunk_text_reconstruction (text : List Char) (maxChars : Nat)
    (hmax : 1 ≤ maxChars) :
    (∀ c ∈ chunk_text text maxChars, c.length ≤ maxChars)
    ∧ Interleaves (chunk_text text maxChars) text
    ∧ (text ≠ [] → ∀ c ∈ chunk_text text maxChars, c ≠ []) :=
  chunk_text_sound text maxChars hmax

theorem chunk_text_reconstruction_witness :
    Interleaves (chunk_text ("ab  cd".toList) 4) ("ab  cd".toList)
    ∧ ∀ c ∈ chunk_text ("ab  cd".toList) 4, c.length ≤ 4 :=
  ⟨(chunk_text_reconstruction ("ab  cd".toList) 4 (by omega)).2.1,
   (chunk_text_reconstruction ("ab  cd".toList) 4 (by omega)).1⟩

/-- The reconstruction the claim asserts: consecutive chunks are separated
by exactly one trimmed whitespace character, and nothing else is lost. -/
inductive JoinsWith : List (List Char) → List Char → Prop
  | single (c : List Char) : JoinsWith [c] c
  | more (c : List Char) (cs : List (List Char)) (sep : Char) (rest : List Char) :
      isPySpace sep = true → JoinsWith cs rest → JoinsWith (c :: cs) (c ++ sep :: rest)

/-- C6 counterexample: `chunk_text "" 1 = [""]` contains an empty chunk, and
for `"ab  cd"` with limit 4 the chunks are `["ab", "cd"]` — restoring one
single separating whitespace character cannot rebuild the two spaces of the
original text. -/
theorem chunk_text_counterexample :
    chunk_text [] 1 = [[]]
    ∧ [] ∈ chunk_text [] 1
    ∧ chunk_text ("ab  cd".toList) 4 = [['a', 'b'], ['c', 'd']]
    ∧ ¬ JoinsWith (chunk_text ("ab  cd".toList) 4) ("ab  cd".toList) := by
  have hc : chunk_text ("ab  cd".toList) 4 = [['a', 'b'], ['c', 'd']] := by decide
  refine ⟨rfl, by decide, hc, ?_⟩
  rw [hc]
  have htext : ("ab  cd".toList) = ['a', 'b', ' ', ' ', 'c', 'd'] := rfl
  rw [htext]
  intro h
  cases h with
  | more c cs sep rest hsep hrest => cases hrest

/-- C7 (amended): every chunk of `chunk_text` is at most `max_chars` long,
and a hard character cut (`split_pos = max_chars`) happens only when the
window holds no space character at all and no paragraph break, sentence
punctuation or clause punctuation at any position in its back half
(`max_chars // 2` onwards).  The claim's "fewest chunks" guarantee is false:
see the counterexample. -/
theorem chunk_text_hard_cut (text : List Char) (maxChars : Nat)
    (hmax : 1 ≤ maxChars) :
    (∀ c ∈ chunk_text text maxChars, c.length ≤ maxChars)
    ∧ (∀ chunk : List Char, chunk.length ≤ maxChars →
        splitPos chunk maxChars = maxChars →
        (∀ i, patAt [' '] chunk i = false)
        ∧ (∀ pat ∈ sentencePats ++ clausePats, ∀ i, maxChars / 2 ≤ i →
            patAt pat chunk i = false)
        ∧ (∀ i, maxChars / 2 ≤ i → patAt ['\n', '\n'] chunk i = false)) :=
  ⟨(chunk_text_sound text maxChars hmax).1,
   fun _ hlen hcut => splitPos_hard_cut hmax hlen hcut⟩

theorem chunk_text_hard_cut_witness :
    (chunk_text ("abcd".toList) 2).all (fun c => decide (c.length ≤ 2)) = true := by
  have h := (chunk_text_hard_cut ("abcd".toList) 2 (by omega)).1
  rw [List.all_eq_true]
  intro c hc
  exact decide_eq_true (h c hc)

/-- C7 counterexample: `"ab cdefg"` with limit 4 splits into a 2-piece
partition with every piece within the limit, but `chunk_text` produces 3
chunks — the greedy natural-break pass is not minimal. -/
theorem chunk_text_not_minimal :
    chunk_text ("ab cdefg".toList) 4 = [['a', 'b'], ['c', 'd', 'e', 'f'], ['g']]
    ∧ (["ab c".toList, "defg".toList] : List (List Char)).flatten = "ab cdefg".toList
    ∧ (∀ p ∈ (["ab c".toList, "defg".toList] : List (List Char)), p.length ≤ 4)
    ∧ ¬ ((chunk_text ("ab cdefg".toList) 4).length ≤
        (["ab c".toList, "defg".toList] : List (List Char)).length) := by
  refine ⟨by decide, by decide, by decide, by decide⟩

/-- C10: with `max_chars ≥ 1` the splitting loop terminates — every
iteration strictly shortens the remaining text, so fuel `len + 1` always
suffices — while with `max_chars = 0` the loop makes no progress on
`"ab"` and never returns, whatever the fuel. -/
theorem chunk_text_terminates :
    (∀ (maxChars fuel : Nat) (text : List Char), 1 ≤ maxChars →
      text.length < fuel → (chunkLoop maxChars fuel text).isSome = true)
    ∧ (∀ (maxChars : Nat) (remaining : List Char), 1 ≤ maxChars →
        maxChars < remaining.length →
        (chunkStep maxChars remaining).2.length < remaining.length)
    ∧ (∀ fuel : Nat, chunkLoop 0 fuel ['a', 'b'] = none) := by
  refine ⟨fun maxChars fuel text hmax hlt => chunkLoop_isSome hmax fuel text hlt,
    fun maxChars remaining hmax hlong => chunkStep_snd_lt hmax hlong, ?_⟩
  intro fuel
  induction fuel with
  | zero => rfl
  | succ n ih =>
    have hstep : (chunkStep 0 ['a', 'b']).2 = ['a', 'b'] := by decide
    rw [chunkLoop_succ, hstep, ih]
    rfl

theorem chunk_text_terminates_witness :
    (chunkLoop 1 3 ['a', 'b']).isSome = true
    ∧ (chunkStep 1 ['a', 'b']).2.length < (['a', 'b'] : List Char).length :=
  ⟨chunk_text_terminates.1 1 3 ['a', 'b'] (by omega) (by decide),
   chunk_text_terminates.2.1 1 ['a', 'b'] (by omega) (by decide)⟩

/-! ## Witnesses for the remaining hypothesis-bearing theorems -/

theorem filter_items_membership_witness :
    ∃ n, { ContentItem.mk "t" "u" "s" "m" 5 with score := n } ∈
      filter_items [ContentItem.mk "t" "u" "s" "m" 5] [] [] [] :=
  (filter_items_membership [ContentItem.mk "t" "u" "s" "m" 5] [] [] []
    (ContentItem.mk "t" "u" "s" "m" 5) (by simp)).mpr
    ⟨by simp, by simp⟩

theorem filter_items_scoring_witness :
    List.Sorted scoreRel (filter_items [ContentItem.mk "t" "u" "s" "m" 5] [] ["t"] []) :=
  (filter_items_scoring [ContentItem.mk "t" "u" "s" "m" 5] [] ["t"] []).2.1

theorem clean_old_urls_spec_witness :
    ("u", "b") ∈ (clean_old_urls (RunState.mk [("u", "b")] []) "a").url_timestamps := by
  have h := (clean_old_urls_spec (RunState.mk [("u", "b")] []) "a").1 "u" "b"
  exact h.mpr ⟨by simp, by decide⟩

theorem update_feed_correct_witness :
    update_feed [Episode.mk "2026-01-01" "t" "d" "u"]
      (Episode.mk "2026-01-01" "t2" "d2" "u2") =
      [Episode.mk "2026-01-01" "t2" "d2" "u2"] := by
  have h := (update_feed_correct [Episode.mk "2026-01-01" "t" "d" "u"]
    (Episode.mk "2026-01-01" "t2" "d2" "u2") (by simp) (by simp)).1 (by simp)
  obtain ⟨i, hi, _, hupd, _, _, _⟩ := h
  have hi1 : i < 1 := by simpa using hi
  have hz : i = 0 := by omega
  subst hz
  simpa using hupd

end Vibecast
